import Mathlib

/-!
Verification of the MinHash/LSH similarity pipeline (src/minhash.py,
src/lsh.py, src/jaccard.py) against its design specification.

The Python code is shallowly embedded: a scipy CSR incidence matrix is a
structure holding `indptr` and `indices` lists; numpy integer arithmetic is
carried out over `Nat` (all quantities in the pipeline are non-negative and
far below the int64 range for any input the range claims depend on); Python
float division of two non-negative integers is modelled exactly by `ℚ`;
functions that raise exceptions return `Except String`; the file sink of the
verifier is modelled as the list of written pairs, in write order.
-/

/-- A scipy CSR boolean incidence matrix (User x Movie): only the fields the
pipeline reads (`shape`, `indptr`, `indices`) are carried. -/
structure CsrMatrix where
  nRows : Nat
  nCols : Nat
  indptr : List Nat
  indices : List Nat
deriving DecidableEq

/-- The sorted 0-based active-column list of row `u`:
`indices[indptr[u] : indptr[u+1]]`, exactly the slice the source takes. -/
def rowOf (R : CsrMatrix) (u : Nat) : List Nat :=
  (R.indices.drop (R.indptr.getD u 0)).take (R.indptr.getD (u + 1) 0 - R.indptr.getD u 0)

/-- The CSR invariant the spec states for `SparseIncidenceSource`: column
indices within each row are strictly increasing. -/
def SortedRows (R : CsrMatrix) : Prop :=
  ∀ u, u < R.nRows → List.Pairwise (· < ·) (rowOf R u)

instance (R : CsrMatrix) : Decidable (SortedRows R) := by
  unfold SortedRows; infer_instance

/-- One step per unit of fuel of the two-pointer merge loop of
`jaccard_similarity_csr` (src/jaccard.py lines 40-55).  The loop advances at
least one pointer per iteration, so `len1 + len2` fuel always suffices;
structural recursion on the fuel keeps the function kernel-reducible. -/
def twoPointerLoop : Nat → List Nat → List Nat → Nat
  | fuel + 1, c1 :: r1, c2 :: r2 =>
    if c1 = c2 then twoPointerLoop fuel r1 r2 + 1
    else if c1 < c2 then twoPointerLoop fuel r1 (c2 :: r2)
    else twoPointerLoop fuel (c1 :: r1) r2
  | _, _, _ => 0

/-- The two-pointer intersection count of src/jaccard.py lines 40-55: the
number of matching elements found by the merge of two sorted arrays. -/
def intersectCount (l1 l2 : List Nat) : Nat :=
  twoPointerLoop (l1.length + l2.length) l1 l2

/-- The value computed by `jaccard_similarity_csr` from the two sliced rows
(src/jaccard.py lines 39-65): two-pointer intersection, `0.0` on empty
intersection or empty union, else `intersection / union`.  Float division of
two non-negative machine integers is modelled by `ℚ`. -/
def jaccardOfRows (cols1 cols2 : List Nat) : ℚ :=
  let inter := intersectCount cols1 cols2
  if inter = 0 then 0
  else
    let unionSize := cols1.length + cols2.length - inter
    if unionSize = 0 then 0
    else (inter : ℚ) / (unionSize : ℚ)

/-- `jaccard_similarity_csr` (src/jaccard.py): Jaccard similarity of rows
`u1`, `u2` of a CSR matrix.  Mirrors the source: `1.0` on `u1 == u2`, then a
swap so the smaller index comes first, then the two-pointer merge on the two
row slices. -/
def jaccard_similarity_csr (R : CsrMatrix) (u1 u2 : Nat) : ℚ :=
  if u1 = u2 then 1
  else if u1 > u2 then jaccardOfRows (rowOf R u2) (rowOf R u1)
  else jaccardOfRows (rowOf R u1) (rowOf R u2)

/-- `verify_candidates_and_write` (src/jaccard.py): checks each candidate in
iteration order and appends accepted pairs, converted to 1-based ids with the
smaller id first, to the output file.  The file sink is modelled as the list
of written pairs in write order. -/
def verify_candidates_and_write (R : CsrMatrix) :
    List (Nat × Nat) → ℚ → List (Nat × Nat)
  | [], _ => []
  | c :: rest, threshold =>
    (if threshold ≤ jaccard_similarity_csr R c.1 c.2 then
      [if c.1 + 1 > c.2 + 1 then (c.2 + 1, c.1 + 1) else (c.1 + 1, c.2 + 1)]
    else []) ++ verify_candidates_and_write R rest threshold

-- Concrete matrices used as evaluation inputs.

/-- Rows `{1,2,3,4}` and `{3,4,5,6}` — the worked example of spec §8. -/
def csrAB : CsrMatrix := ⟨2, 7, [0, 4, 8], [1, 2, 3, 4, 3, 4, 5, 6]⟩

/-- Two rows, both with no active columns. -/
def csrEmpty2 : CsrMatrix := ⟨2, 3, [0, 0, 0], []⟩

/-- Four rows, all with no active columns. -/
def csrEmpty4 : CsrMatrix := ⟨4, 1, [0, 0, 0, 0, 0], []⟩

/-- Row 0 = `{0}`, row 1 empty. -/
def csrHalf : CsrMatrix := ⟨2, 2, [0, 1, 1], [0]⟩

/-! ## MinHash (src/minhash.py) -/

/-- Model of `numpy.random.Generator`: an infinite stream of raw
non-negative draws.  Only the documented contract of `rng.integers(lo, hi,
size=n)` — `n` successive values, each in `[lo, hi)` — and determinism are
modelled; the concrete PCG64 values are not. -/
def RngStream : Type := Nat → Nat

/-- Model of `np.random.default_rng(seed)`: a deterministic stream that is a
fixed function of the seed (the concrete generator is irrelevant to every
claim; only range and determinism matter). -/
def default_rng (seed : Nat) : RngStream :=
  fun k => (2654435761 * (seed + k) + 12345) % 4294967296

/-- One draw of `rng.integers(lo, hi)` from raw value `raw`: a value in
`[lo, hi)` (the documented contract of the numpy call). -/
def rngInteger (lo hi raw : Nat) : Nat := lo + raw % (hi - lo)

/-- The `(a, b, p)` triple returned by `generate_hash_functions`. -/
structure HashFamily where
  a : List Nat
  b : List Nat
  p : Nat
deriving DecidableEq

/-- `generate_hash_functions` (src/minhash.py lines 16-30): fixed prime
`p = 2_000_003` (the `max_value` argument is not consulted), then
`a = rng.integers(1, p, size=num_hashes)` and
`b = rng.integers(0, p, size=num_hashes)` — the first `num_hashes` raw draws
feed `a`, the next `num_hashes` feed `b`. -/
def generate_hash_functions (num_hashes : Nat) (max_value : Nat)
    (rng : RngStream) : HashFamily :=
  let p := 2000003
  { a := (List.range num_hashes).map fun i => rngInteger 1 p (rng i)
    b := (List.range num_hashes).map fun i => rngInteger 0 p (rng (num_hashes + i))
    p := p }

/-- A dense 2D integer array (e.g. the signature matrix): shape plus an
entry function. -/
structure Mat where
  nRows : Nat
  nCols : Nat
  entry : Nat → Nat → Nat

/-- `h_vals[i, m] = (a_i * m + b_i) % p` (src/minhash.py line 60). -/
def hashVal (fam : HashFamily) (i m : Nat) : Nat :=
  (fam.a.getD i 0 * m + fam.b.getD i 0) % fam.p

/-- The signature matrix built by `compute_minhash_signatures`
(src/minhash.py lines 50-90): row `u`, column `i` is the minimum of
`h_i(m)` over the movies `m` of row `u`, or the sentinel `p + 1` when the
row has no active columns. -/
def minhashCore (R : CsrMatrix) (num_hashes seed : Nat) : Mat :=
  let rng := default_rng seed
  let fam := generate_hash_functions num_hashes R.nCols rng
  { nRows := R.nRows
    nCols := num_hashes
    entry := fun u i =>
      match rowOf R u with
      | [] => fam.p + 1
      | m :: ms => (ms.map (hashVal fam i)).foldl min (hashVal fam i m) }

/-- A Python argument that may or may not be a `csr_matrix`, for the
`isinstance` check of `compute_minhash_signatures`. -/
inductive PyMatrixArg where
  | csr (R : CsrMatrix)
  | nonCsr
deriving DecidableEq

/-- `compute_minhash_signatures` (src/minhash.py lines 33-90): raises
`TypeError` on a non-csr argument, otherwise computes the signature matrix.
No validation of `num_hashes` is performed. -/
def compute_minhash_signatures (input : PyMatrixArg) (num_hashes seed : Nat) :
    Except String Mat :=
  match input with
  | .nonCsr => .error "R must be a csr_matrix"
  | .csr R => .ok (minhashCore R num_hashes seed)

/-! ## LSH banding (src/lsh.py) -/

/-- The sub-signature of row `u` in band `b`:
`signatures[u, b*rows_per_band : (b+1)*rows_per_band]`.  The source turns
this slice into a `bytes` dict key; int32-to-bytes conversion is injective
on the int32 values, so the value list itself is the faithful key. -/
def bandKey (sigs : Mat) (rpb u b : Nat) : List Nat :=
  (List.range rpb).map fun i => sigs.entry u (b * rpb + i)

/-- The bucket of `(b, key)`: the rows whose band-`b` sub-signature equals
`key`, in increasing row order (rows are inserted for `u = 0, 1, ...`, so
the Python bucket list is exactly this filtered range). -/
def bucketUsers (sigs : Mat) (rpb b : Nat) (key : List Nat) : List Nat :=
  (List.range sigs.nRows).filter fun u => bandKey sigs rpb u b = key

/-- The double loop of src/lsh.py lines 97-105: all pairs of two distinct
positions of the bucket list, each normalized so the smaller row id is
first. -/
def pairsOf : List Nat → List (Nat × Nat)
  | [] => []
  | u :: rest =>
    (rest.map fun v => if u < v then (u, v) else (v, u)) ++ pairsOf rest

/-- The candidate-pair set produced by the banding and bucketing passes of
`lsh_candidate_pairs` once the parameter checks have passed: the union over
bands `b` and occurring keys of the `C(k, 2)` pairs of every bucket with
`2 ≤ k ≤ max_bucket_size`.  Buckets with fewer than 2 or more than
`max_bucket_size` members contribute nothing (src/lsh.py lines 85-105). -/
def lshCandidatesCore (sigs : Mat) (rpb mbs : Nat) : Finset (Nat × Nat) :=
  (Finset.range (sigs.nCols / rpb)).biUnion fun b =>
    ((List.range sigs.nRows).map fun u => bandKey sigs rpb u b).toFinset.biUnion
      fun key =>
        let users := bucketUsers sigs rpb b key
        if 2 ≤ users.length ∧ users.length ≤ mbs then (pairsOf users).toFinset
        else ∅

/-- `lsh_candidate_pairs` (src/lsh.py lines 25-111): validates
`rows_per_band` and the band count, then returns the candidate-pair set.
The `ndim == 2` check is intrinsic to the `Mat` type. -/
def lsh_candidate_pairs (sigs : Mat) (rpb mbs : Nat) :
    Except String (Finset (Nat × Nat)) :=
  if rpb = 0 then .error "rows_per_band must be positive"
  else if sigs.nCols / rpb = 0 then
    .error "rows_per_band is too large for num_hashes"
  else .ok (lshCandidatesCore sigs rpb mbs)

/-! ## Pipeline composition (main.py / run_full.py) -/

/-- Strict lexicographic order on output pairs, the "ascending by
`(uid1, uid2)`" order of the spec. -/
def pairLt (x y : Nat × Nat) : Prop :=
  x.1 < y.1 ∨ (x.1 = y.1 ∧ x.2 < y.2)

instance : DecidableRel pairLt := by
  unfold pairLt; infer_instance

/-- Reflexive lexicographic order on pairs, used to serialize a candidate
set into one canonical iteration order. -/
def pairLe (x y : Nat × Nat) : Prop :=
  x.1 < y.1 ∨ (x.1 = y.1 ∧ x.2 ≤ y.2)

instance : DecidableRel pairLe := by
  unfold pairLe; infer_instance

instance : IsTrans (Nat × Nat) pairLe where
  trans := by
    rintro ⟨a, b⟩ ⟨c, d⟩ ⟨e, f⟩ h1 h2
    rcases h1 with h1 | ⟨h1, h1b⟩ <;> rcases h2 with h2 | ⟨h2, h2b⟩ <;>
      simp_all [pairLe] <;> omega

instance : IsAntisymm (Nat × Nat) pairLe where
  antisymm := by
    rintro ⟨a, b⟩ ⟨c, d⟩ h1 h2
    rcases h1 with h1 | ⟨h1, h1b⟩ <;> rcases h2 with h2 | ⟨h2, h2b⟩ <;>
      simp_all [pairLe] <;> omega

instance : IsTotal (Nat × Nat) pairLe where
  total := by
    rintro ⟨a, b⟩ ⟨c, d⟩
    simp only [pairLe]
    omega

/-- Iteration over a Python set of int pairs: deterministic for identical
contents (CPython int/tuple hashing is seed-independent); modelled by the
canonical ascending serialization. -/
def iterationOf (s : Finset (Nat × Nat)) : List (Nat × Nat) :=
  s.sort pairLe

/-- The pipeline of main.py / run_full.py downstream of loading: signatures,
then LSH candidates, then verification; the result is the written file
content (as the list of written pairs). -/
def runOutput (R : CsrMatrix) (num_hashes seed rpb mbs : Nat) (threshold : ℚ) :
    Except String (List (Nat × Nat)) :=
  match lsh_candidate_pairs (minhashCore R num_hashes seed) rpb mbs with
  | .error e => .error e
  | .ok cands => .ok (verify_candidates_and_write R (iterationOf cands) threshold)

/-- A 2 × 1 signature matrix with both rows identical (entry `0`). -/
def sigTwo : Mat := ⟨2, 1, fun _ _ => 0⟩

/-- The all-zero raw draw stream, a concrete `RngStream`. -/
def zeroStream : RngStream := fun _ => 0

/-! ## Lemmas: the two-pointer merge computes the intersection cardinality -/

theorem twoPointerLoop_nil_left (fuel : Nat) (l2 : List Nat) :
    twoPointerLoop fuel [] l2 = 0 := by
  cases fuel <;> cases l2 <;> rfl

theorem twoPointerLoop_nil_right (fuel : Nat) (l1 : List Nat) :
    twoPointerLoop fuel l1 [] = 0 := by
  cases fuel <;> cases l1 <;> rfl

theorem twoPointerLoop_eq_card (fuel : Nat) :
    ∀ l1 l2 : List Nat, l1.length + l2.length ≤ fuel →
      l1.Pairwise (· < ·) → l2.Pairwise (· < ·) →
      twoPointerLoop fuel l1 l2 = (l1.toFinset ∩ l2.toFinset).card := by
  induction fuel with
  | zero =>
    intro l1 l2 hf _ _
    have h1 : l1 = [] := by cases l1 <;> simp_all
    have h2 : l2 = [] := by cases l2 <;> simp_all
    subst h1; subst h2
    simp [twoPointerLoop]
  | succ fuel ih =>
    intro l1 l2 hf hs1 hs2
    match l1, l2 with
    | [], l2 => simp [twoPointerLoop_nil_left]
    | c1 :: r1, [] => simp [twoPointerLoop_nil_right]
    | c1 :: r1, c2 :: r2 =>
      have hhead1 : ∀ x ∈ r1, c1 < x := (List.pairwise_cons.mp hs1).1
      have hhead2 : ∀ x ∈ r2, c2 < x := (List.pairwise_cons.mp hs2).1
      have htail1 : r1.Pairwise (· < ·) := (List.pairwise_cons.mp hs1).2
      have htail2 : r2.Pairwise (· < ·) := (List.pairwise_cons.mp hs2).2
      simp only [twoPointerLoop]
      by_cases hc : c1 = c2
      · subst hc
        rw [if_pos rfl]
        have hnotmem : c1 ∉ r1.toFinset ∩ r2.toFinset := by
          intro hmem
          exact absurd rfl
            (Nat.ne_of_lt (hhead1 c1 (List.mem_toFinset.mp (Finset.mem_of_mem_inter_left hmem))))
        rw [List.toFinset_cons, List.toFinset_cons, ← Finset.insert_inter_distrib,
          Finset.card_insert_of_not_mem hnotmem,
          ih r1 r2 (by simp_all; omega) htail1 htail2]
      · rw [if_neg hc]
        by_cases hlt : c1 < c2
        · rw [if_pos hlt]
          have hnotmem : c1 ∉ (c2 :: r2).toFinset := by
            simp only [List.toFinset_cons, Finset.mem_insert, List.mem_toFinset]
            push_neg
            exact ⟨hc, fun hmem => Nat.ne_of_lt (Nat.lt_trans hlt (hhead2 c1 hmem)) rfl⟩
          rw [List.toFinset_cons, Finset.insert_inter_of_not_mem hnotmem,
            ih r1 (c2 :: r2) (by simp_all; omega) htail1 hs2]
        · rw [if_neg hlt]
          have hgt : c2 < c1 := by omega
          have hnotmem : c2 ∉ (c1 :: r1).toFinset := by
            simp only [List.toFinset_cons, Finset.mem_insert, List.mem_toFinset]
            push_neg
            exact ⟨fun h => hc h.symm,
              fun hmem => Nat.ne_of_lt (Nat.lt_trans hgt (hhead1 c2 hmem)) rfl⟩
          rw [List.toFinset_cons (a := c2), Finset.inter_insert_of_not_mem hnotmem,
            ih (c1 :: r1) r2 (by simp_all; omega) hs1 htail2]

theorem intersectCount_eq_card (l1 l2 : List Nat)
    (hs1 : l1.Pairwise (· < ·)) (hs2 : l2.Pairwise (· < ·)) :
    intersectCount l1 l2 = (l1.toFinset ∩ l2.toFinset).card :=
  twoPointerLoop_eq_card (l1.length + l2.length) l1 l2 le_rfl hs1 hs2

theorem twoPointerLoop_le_left (fuel : Nat) :
    ∀ l1 l2 : List Nat, twoPointerLoop fuel l1 l2 ≤ l1.length := by
  induction fuel with
  | zero => intro l1 l2; cases l1 <;> cases l2 <;> simp [twoPointerLoop]
  | succ fuel ih =>
    intro l1 l2
    match l1, l2 with
    | [], l2 => simp [twoPointerLoop_nil_left]
    | c1 :: r1, [] => simp [twoPointerLoop_nil_right]
    | c1 :: r1, c2 :: r2 =>
      simp only [twoPointerLoop, List.length_cons]
      by_cases hc : c1 = c2
      · rw [if_pos hc]
        exact Nat.succ_le_succ (ih r1 r2)
      · rw [if_neg hc]
        by_cases hlt : c1 < c2
        · rw [if_pos hlt]
          exact Nat.le_succ_of_le (ih r1 (c2 :: r2))
        · rw [if_neg hlt]
          exact ih (c1 :: r1) r2

theorem twoPointerLoop_le_right (fuel : Nat) :
    ∀ l1 l2 : List Nat, twoPointerLoop fuel l1 l2 ≤ l2.length := by
  induction fuel with
  | zero => intro l1 l2; cases l1 <;> cases l2 <;> simp [twoPointerLoop]
  | succ fuel ih =>
    intro l1 l2
    match l1, l2 with
    | [], l2 => simp [twoPointerLoop_nil_left]
    | c1 :: r1, [] => simp [twoPointerLoop_nil_right]
    | c1 :: r1, c2 :: r2 =>
      simp only [twoPointerLoop, List.length_cons]
      by_cases hc : c1 = c2
      · rw [if_pos hc]
        exact Nat.succ_le_succ (ih r1 r2)
      · rw [if_neg hc]
        by_cases hlt : c1 < c2
        · rw [if_pos hlt]
          exact ih r1 (c2 :: r2)
        · rw [if_neg hlt]
          exact Nat.le_succ_of_le (ih (c1 :: r1) r2)

theorem intersectCount_le_left (l1 l2 : List Nat) :
    intersectCount l1 l2 ≤ l1.length :=
  twoPointerLoop_le_left _ l1 l2

theorem intersectCount_le_right (l1 l2 : List Nat) :
    intersectCount l1 l2 ≤ l2.length :=
  twoPointerLoop_le_right _ l1 l2

theorem jaccardOfRows_eq_card (l1 l2 : List Nat)
    (hs1 : l1.Pairwise (· < ·)) (hs2 : l2.Pairwise (· < ·)) :
    jaccardOfRows l1 l2 =
      if l1.toFinset ∪ l2.toFinset = ∅ then 0
      else ((l1.toFinset ∩ l2.toFinset).card : ℚ) /
        ((l1.toFinset.card + l2.toFinset.card - (l1.toFinset ∩ l2.toFinset).card : ℕ) : ℚ) := by
  have hcard := intersectCount_eq_card l1 l2 hs1 hs2
  have hlen1 : l1.toFinset.card = l1.length := List.toFinset_card_of_nodup hs1.nodup
  have hlen2 : l2.toFinset.card = l2.length := List.toFinset_card_of_nodup hs2.nodup
  by_cases hu : l1.toFinset ∪ l2.toFinset = ∅
  · rw [if_pos hu]
    have h1 : l1 = [] := (List.toFinset_eq_empty_iff l1).mp (Finset.union_eq_empty.mp hu).1
    have h2 : l2 = [] := (List.toFinset_eq_empty_iff l2).mp (Finset.union_eq_empty.mp hu).2
    subst h1; subst h2
    rfl
  · rw [if_neg hu]
    by_cases h0 : intersectCount l1 l2 = 0
    · have hc0 : (l1.toFinset ∩ l2.toFinset).card = 0 := by rw [← hcard]; exact h0
      rw [jaccardOfRows, if_pos h0, hc0]
      simp
    · have hle1 := intersectCount_le_left l1 l2
      have hle2 := intersectCount_le_right l1 l2
      have hu0 : l1.length + l2.length - intersectCount l1 l2 ≠ 0 := by omega
      rw [jaccardOfRows, if_neg h0]
      simp only [if_neg hu0]
      rw [hcard, hlen1, hlen2]

theorem jaccardOfRows_nonneg (l1 l2 : List Nat) : 0 ≤ jaccardOfRows l1 l2 := by
  simp only [jaccardOfRows]
  split
  · exact le_rfl
  · split
    · exact le_rfl
    · positivity

theorem jaccardOfRows_le_one (l1 l2 : List Nat) : jaccardOfRows l1 l2 ≤ 1 := by
  have hle1 := intersectCount_le_left l1 l2
  have hle2 := intersectCount_le_right l1 l2
  simp only [jaccardOfRows]
  split
  · exact zero_le_one
  · rename_i h0
    split
    · exact zero_le_one
    · rename_i hu0
      rw [div_le_one (by positivity)]
      exact_mod_cast (by omega :
        intersectCount l1 l2 ≤ l1.length + l2.length - intersectCount l1 l2)

theorem jaccard_nonneg (R : CsrMatrix) (u1 u2 : Nat) :
    0 ≤ jaccard_similarity_csr R u1 u2 := by
  rw [jaccard_similarity_csr]
  split
  · exact zero_le_one
  · split <;> exact jaccardOfRows_nonneg _ _

theorem jaccard_le_one (R : CsrMatrix) (u1 u2 : Nat) :
    jaccard_similarity_csr R u1 u2 ≤ 1 := by
  rw [jaccard_similarity_csr]
  split
  · exact le_rfl
  · split <;> exact jaccardOfRows_le_one _ _

theorem jaccard_eq_card (R : CsrMatrix) (u1 u2 : Nat)
    (hs1 : (rowOf R u1).Pairwise (· < ·)) (hs2 : (rowOf R u2).Pairwise (· < ·))
    (hne : u1 ≠ u2) :
    jaccard_similarity_csr R u1 u2 =
      if (rowOf R u1).toFinset ∪ (rowOf R u2).toFinset = ∅ then 0
      else (((rowOf R u1).toFinset ∩ (rowOf R u2).toFinset).card : ℚ) /
        (((rowOf R u1).toFinset.card + (rowOf R u2).toFinset.card
          - ((rowOf R u1).toFinset ∩ (rowOf R u2).toFinset).card : ℕ) : ℚ) := by
  rw [jaccard_similarity_csr, if_neg hne]
  by_cases hgt : u1 > u2
  · rw [if_pos hgt, jaccardOfRows_eq_card _ _ hs2 hs1, Finset.union_comm,
      Finset.inter_comm, Nat.add_comm]
  · rw [if_neg hgt, jaccardOfRows_eq_card _ _ hs1 hs2]

/-! ## Lemmas: the verifier writes the filtered, normalized candidates -/

theorem verify_eq_map_filter (R : CsrMatrix) (cands : List (Nat × Nat))
    (t : ℚ) (hc : ∀ c ∈ cands, c.1 < c.2) :
    verify_candidates_and_write R cands t =
      (cands.filter fun c => t ≤ jaccard_similarity_csr R c.1 c.2).map
        fun c => (c.1 + 1, c.2 + 1) := by
  induction cands with
  | nil => rfl
  | cons c cs ih =>
    have hc1 : c.1 < c.2 := hc c (List.mem_cons_self c cs)
    have hcs : ∀ x ∈ cs, x.1 < x.2 := fun x hx => hc x (List.mem_cons_of_mem c hx)
    rw [verify_candidates_and_write]
    by_cases h : t ≤ jaccard_similarity_csr R c.1 c.2
    · rw [if_pos h, List.filter_cons_of_pos (by simpa using h), List.map_cons,
        if_neg (by omega : ¬ c.1 + 1 > c.2 + 1), List.singleton_append, ih hcs]
    · rw [if_neg h, List.filter_cons_of_neg (by simpa using h), List.nil_append]
      exact ih hcs

theorem verify_nodup (R : CsrMatrix) (cands : List (Nat × Nat)) (t : ℚ)
    (hc : ∀ c ∈ cands, c.1 < c.2) (hnd : cands.Nodup) :
    (verify_candidates_and_write R cands t).Nodup := by
  rw [verify_eq_map_filter R cands t hc]
  refine List.Nodup.map_on ?_ (hnd.filter _)
  intro x _ y _ hxy
  have h1 : x.1 + 1 = y.1 + 1 := congrArg Prod.fst hxy
  have h2 : x.2 + 1 = y.2 + 1 := congrArg Prod.snd hxy
  exact Prod.ext (by omega) (by omega)

/-! ## Lemmas: LSH buckets and pair generation -/

theorem mem_of_mem_pairsOf :
    ∀ {l : List Nat} {x y : Nat}, (x, y) ∈ pairsOf l → x ∈ l ∧ y ∈ l := by
  intro l
  induction l with
  | nil => intro x y h; simp [pairsOf] at h
  | cons u rest ih =>
    intro x y h
    rcases List.mem_append.mp h with h | h
    · obtain ⟨v, hv, hveq⟩ := List.mem_map.mp h
      by_cases huv : u < v
      · rw [if_pos huv] at hveq
        cases hveq
        exact ⟨List.mem_cons_self u rest, List.mem_cons_of_mem u hv⟩
      · rw [if_neg huv] at hveq
        cases hveq
        exact ⟨List.mem_cons_of_mem u hv, List.mem_cons_self u rest⟩
    · obtain ⟨hx, hy⟩ := ih h
      exact ⟨List.mem_cons_of_mem u hx, List.mem_cons_of_mem u hy⟩

theorem pairsOf_mem_of_mem :
    ∀ {l : List Nat} {a b : Nat}, a ∈ l → b ∈ l → a < b → (a, b) ∈ pairsOf l := by
  intro l
  induction l with
  | nil => intro a b ha _ _; simp at ha
  | cons u rest ih =>
    intro a b ha hb hab
    rcases List.mem_cons.mp ha with ha | ha
    · subst ha
      rcases List.mem_cons.mp hb with hb | hb
      · omega
      · refine List.mem_append_left _ (List.mem_map.mpr ⟨b, hb, ?_⟩)
        rw [if_pos hab]
    · rcases List.mem_cons.mp hb with hb | hb
      · refine List.mem_append_left _ (List.mem_map.mpr ⟨a, ha, ?_⟩)
        rw [if_neg (by omega : ¬ u < a), hb]
      · exact List.mem_append_right _ (ih ha hb hab)

theorem pairsOf_lt :
    ∀ {l : List Nat}, l.Pairwise (· < ·) →
      ∀ {x y : Nat}, (x, y) ∈ pairsOf l → x < y := by
  intro l
  induction l with
  | nil => intro _ x y h; simp [pairsOf] at h
  | cons u rest ih =>
    intro hs x y h
    have hhead : ∀ v ∈ rest, u < v := (List.pairwise_cons.mp hs).1
    rcases List.mem_append.mp h with h | h
    · obtain ⟨v, hv, hveq⟩ := List.mem_map.mp h
      rw [if_pos (hhead v hv)] at hveq
      have h1 : u = x := congrArg Prod.fst hveq
      have h2 : v = y := congrArg Prod.snd hveq
      rw [← h1, ← h2]
      exact hhead v hv
    · exact ih (List.pairwise_cons.mp hs).2 h

theorem bucketUsers_sorted (sigs : Mat) (rpb b : Nat) (key : List Nat) :
    (bucketUsers sigs rpb b key).Pairwise (· < ·) :=
  (List.pairwise_lt_range sigs.nRows).filter _

theorem mem_bucketUsers (sigs : Mat) (rpb b : Nat) (key : List Nat) (u : Nat) :
    u ∈ bucketUsers sigs rpb b key ↔ u < sigs.nRows ∧ bandKey sigs rpb u b = key := by
  simp [bucketUsers, List.mem_filter, List.mem_range]

theorem mem_lshCandidatesCore (sigs : Mat) (rpb mbs : Nat) (q : Nat × Nat) :
    q ∈ lshCandidatesCore sigs rpb mbs ↔
      ∃ b, b < sigs.nCols / rpb ∧ ∃ key,
        q ∈ pairsOf (bucketUsers sigs rpb b key) ∧
        2 ≤ (bucketUsers sigs rpb b key).length ∧
        (bucketUsers sigs rpb b key).length ≤ mbs := by
  unfold lshCandidatesCore
  simp only [Finset.mem_biUnion, Finset.mem_range, List.mem_toFinset, List.mem_map,
    List.mem_range]
  constructor
  · rintro ⟨b, hb, key, _, hq⟩
    split at hq
    · rename_i hcond
      exact ⟨b, hb, key, List.mem_toFinset.mp hq, hcond.1, hcond.2⟩
    · exact absurd hq (Finset.not_mem_empty q)
  · rintro ⟨b, hb, key, hq, h2, h3⟩
    obtain ⟨u, hu⟩ := List.exists_mem_of_length_pos (by omega :
      0 < (bucketUsers sigs rpb b key).length)
    obtain ⟨hun, hukey⟩ := (mem_bucketUsers sigs rpb b key u).mp hu
    refine ⟨b, hb, key, ⟨u, hun, hukey⟩, ?_⟩
    rw [if_pos ⟨h2, h3⟩]
    exact List.mem_toFinset.mpr hq

/-! ## Lemmas: hash-family ranges and signature entry bounds -/

theorem prime_2000003 : Nat.Prime 2000003 := by norm_num

theorem generate_p_eq (num_hashes max_value : Nat) (rng : RngStream) :
    (generate_hash_functions num_hashes max_value rng).p = 2000003 := rfl

theorem generate_a_range (num_hashes max_value : Nat) (rng : RngStream) :
    ∀ x ∈ (generate_hash_functions num_hashes max_value rng).a,
      1 ≤ x ∧ x ≤ 2000002 := by
  intro x hx
  simp only [generate_hash_functions, List.mem_map, List.mem_range] at hx
  obtain ⟨i, _, rfl⟩ := hx
  have hm : rng i % 2000002 < 2000002 := Nat.mod_lt _ (by norm_num)
  simp only [rngInteger]
  omega

theorem generate_b_range (num_hashes max_value : Nat) (rng : RngStream) :
    ∀ x ∈ (generate_hash_functions num_hashes max_value rng).b, x ≤ 2000002 := by
  intro x hx
  simp only [generate_hash_functions, List.mem_map, List.mem_range] at hx
  obtain ⟨i, _, rfl⟩ := hx
  have hm : rng (num_hashes + i) % 2000003 < 2000003 := Nat.mod_lt _ (by norm_num)
  simp only [rngInteger]
  omega

theorem hashVal_lt_p (fam : HashFamily) (hp : 0 < fam.p) (i m : Nat) :
    hashVal fam i m < fam.p :=
  Nat.mod_lt _ hp

theorem foldl_min_le (c : Nat) :
    ∀ (l : List Nat) (init : Nat), init ≤ c → (∀ x ∈ l, x ≤ c) →
      l.foldl min init ≤ c := by
  intro l
  induction l with
  | nil => intro init h _; simpa using h
  | cons x xs ih =>
    intro init h hall
    rw [List.foldl_cons]
    exact ih (min init x) (le_trans (min_le_left _ _) h)
      fun y hy => hall y (List.mem_cons_of_mem x hy)

theorem minhashCore_entry_of_empty (R : CsrMatrix) (nh seed u i : Nat)
    (h : rowOf R u = []) : (minhashCore R nh seed).entry u i = 2000004 := by
  simp [minhashCore, generate_hash_functions, h]

theorem minhashCore_entry_of_cons (R : CsrMatrix) (nh seed u i m : Nat)
    (ms : List Nat) (h : rowOf R u = m :: ms) :
    (minhashCore R nh seed).entry u i =
      (ms.map (hashVal (generate_hash_functions nh R.nCols (default_rng seed)) i)).foldl
        min (hashVal (generate_hash_functions nh R.nCols (default_rng seed)) i m) := by
  simp only [minhashCore, h]

theorem minhashCore_entry_le (R : CsrMatrix) (nh seed u i : Nat)
    (h : rowOf R u ≠ []) : (minhashCore R nh seed).entry u i ≤ 2000002 := by
  cases hrow : rowOf R u with
  | nil => exact absurd hrow h
  | cons m ms =>
    rw [minhashCore_entry_of_cons R nh seed u i m ms hrow]
    have hp : 0 < (generate_hash_functions nh R.nCols (default_rng seed)).p := by
      rw [generate_p_eq]; norm_num
    have hlt := hashVal_lt_p (generate_hash_functions nh R.nCols (default_rng seed)) hp
    refine foldl_min_le 2000002 _ _ ?_ ?_
    · have := hlt i m
      rw [generate_p_eq] at this
      omega
    · intro x hx
      obtain ⟨y, _, rfl⟩ := List.mem_map.mp hx
      have := hlt i y
      rw [generate_p_eq] at this
      omega

theorem intersectCount_nil_left (l : List Nat) : intersectCount [] l = 0 :=
  twoPointerLoop_nil_left _ _

theorem intersectCount_nil_right (l : List Nat) : intersectCount l [] = 0 :=
  twoPointerLoop_nil_right _ _

theorem jaccardOfRows_nil_left (l : List Nat) : jaccardOfRows [] l = 0 := by
  simp [jaccardOfRows, intersectCount_nil_left]

theorem jaccardOfRows_nil_right (l : List Nat) : jaccardOfRows l [] = 0 := by
  simp [jaccardOfRows, intersectCount_nil_right]

/-! ## Claims -/

/-- Claim C1: for a CSR incidence matrix with strictly increasing rows and
distinct in-range row indices, `jaccard_similarity_csr` equals
`|S1 ∩ S2| / (|S1| + |S2| - |S1 ∩ S2|)` over the rows' active-column sets
(`0` when the union is empty); and `verify_candidates_and_write` forwards to
the sink exactly the candidates whose similarity meets the threshold, each
written once, as 1-based identifiers with the smaller identifier first. -/
theorem claim_C1_jaccard_and_verifier (R : CsrMatrix) (hR : SortedRows R)
    (u1 u2 : Nat) (hu1 : u1 < R.nRows) (hu2 : u2 < R.nRows) (hne : u1 ≠ u2)
    (cands : List (Nat × Nat)) (hc : ∀ c ∈ cands, c.1 < c.2)
    (hnd : cands.Nodup) (t : ℚ) :
    jaccard_similarity_csr R u1 u2 =
      (if (rowOf R u1).toFinset ∪ (rowOf R u2).toFinset = ∅ then 0
       else (((rowOf R u1).toFinset ∩ (rowOf R u2).toFinset).card : ℚ) /
         (((rowOf R u1).toFinset.card + (rowOf R u2).toFinset.card
           - ((rowOf R u1).toFinset ∩ (rowOf R u2).toFinset).card : ℕ) : ℚ)) ∧
    verify_candidates_and_write R cands t =
      (cands.filter fun c => t ≤ jaccard_similarity_csr R c.1 c.2).map
        (fun c => (c.1 + 1, c.2 + 1)) ∧
    (verify_candidates_and_write R cands t).Nodup :=
  ⟨jaccard_eq_card R u1 u2 (hR u1 hu1) (hR u2 hu2) hne,
   verify_eq_map_filter R cands t hc,
   verify_nodup R cands t hc hnd⟩

/-- Witness for C1 at the worked example of spec §8 (rows `{1,2,3,4}` and
`{3,4,5,6}`). -/
theorem claim_C1_witness :
    jaccard_similarity_csr csrAB 0 1 =
      (if (rowOf csrAB 0).toFinset ∪ (rowOf csrAB 1).toFinset = ∅ then 0
       else (((rowOf csrAB 0).toFinset ∩ (rowOf csrAB 1).toFinset).card : ℚ) /
         (((rowOf csrAB 0).toFinset.card + (rowOf csrAB 1).toFinset.card
           - ((rowOf csrAB 0).toFinset ∩ (rowOf csrAB 1).toFinset).card : ℕ) : ℚ)) ∧
    verify_candidates_and_write csrAB [(0, 1)] 0 =
      ([(0, 1)].filter fun c => (0 : ℚ) ≤ jaccard_similarity_csr csrAB c.1 c.2).map
        (fun c => (c.1 + 1, c.2 + 1)) ∧
    (verify_candidates_and_write csrAB [(0, 1)] 0).Nodup :=
  claim_C1_jaccard_and_verifier csrAB (by decide) 0 1 (by decide) (by decide)
    (by decide) [(0, 1)] (by decide) (by decide) 0

/-- Claim C2: a pair is an LSH candidate exactly when some band has a bucket
of size between 2 and `max_bucket_size` containing both rows; oversized
buckets contribute nothing; the result is a single deduplicated set. -/
theorem claim_C2_lsh_membership (sigs : Mat) (rpb mbs : Nat)
    (h1 : 1 ≤ rpb) (h2 : 1 ≤ sigs.nCols / rpb) (h3 : 1 ≤ mbs)
    (u1 u2 : Nat) (hlt : u1 < u2) :
    lsh_candidate_pairs sigs rpb mbs = .ok (lshCandidatesCore sigs rpb mbs) ∧
    ((u1, u2) ∈ lshCandidatesCore sigs rpb mbs ↔
      ∃ b, b < sigs.nCols / rpb ∧ ∃ key,
        u1 ∈ bucketUsers sigs rpb b key ∧ u2 ∈ bucketUsers sigs rpb b key ∧
        2 ≤ (bucketUsers sigs rpb b key).length ∧
        (bucketUsers sigs rpb b key).length ≤ mbs) := by
  constructor
  · rw [lsh_candidate_pairs, if_neg (by omega : ¬ rpb = 0),
      if_neg (by omega : ¬ sigs.nCols / rpb = 0)]
  · rw [mem_lshCandidatesCore]
    constructor
    · rintro ⟨b, hb, key, hq, hl2, hl3⟩
      obtain ⟨hm1, hm2⟩ := mem_of_mem_pairsOf hq
      exact ⟨b, hb, key, hm1, hm2, hl2, hl3⟩
    · rintro ⟨b, hb, key, hm1, hm2, hl2, hl3⟩
      exact ⟨b, hb, key, pairsOf_mem_of_mem hm1 hm2 hlt, hl2, hl3⟩

/-- Witness for C2 on a concrete 2 × 1 signature matrix with identical
rows. -/
theorem claim_C2_witness :
    lsh_candidate_pairs sigTwo 1 2 = .ok (lshCandidatesCore sigTwo 1 2) ∧
    ((0, 1) ∈ lshCandidatesCore sigTwo 1 2 ↔
      ∃ b, b < sigTwo.nCols / 1 ∧ ∃ key,
        0 ∈ bucketUsers sigTwo 1 b key ∧ 1 ∈ bucketUsers sigTwo 1 b key ∧
        2 ≤ (bucketUsers sigTwo 1 b key).length ∧
        (bucketUsers sigTwo 1 b key).length ≤ 2) :=
  claim_C2_lsh_membership sigTwo 1 2 (by decide) (by decide) (by decide) 0 1
    (by decide)

/-- Claim C3 counterexample: `generate_hash_functions` ignores `max_value`
and always uses the fixed prime `2_000_003`, so for `max_value = 2_000_003`
the prime is not strictly greater than the maximum column index, contrary to
the claim. -/
theorem claim_C3_counterexample :
    (generate_hash_functions 1 2000003 zeroStream).p = 2000003 ∧
    ¬ (2000003 < (generate_hash_functions 1 2000003 zeroStream).p) := by
  exact ⟨rfl, by decide⟩

/-- Claim C3 (amended): the family uses the fixed prime `p = 2_000_003` —
which exceeds `max_value` only when `max_value < 2_000_003` — and every
`a_i ∈ [1, p-1]` and every `b_i ∈ [0, p-1]` is drawn from the seeded
generator stream. -/
theorem claim_C3_hash_family (num_hashes max_value : Nat) (rng : RngStream)
    (hnh : 1 ≤ num_hashes) :
    (generate_hash_functions num_hashes max_value rng).p = 2000003 ∧
    Nat.Prime (generate_hash_functions num_hashes max_value rng).p ∧
    (max_value < 2000003 →
      max_value < (generate_hash_functions num_hashes max_value rng).p) ∧
    (∀ x ∈ (generate_hash_functions num_hashes max_value rng).a,
      1 ≤ x ∧ x ≤ (generate_hash_functions num_hashes max_value rng).p - 1) ∧
    (∀ x ∈ (generate_hash_functions num_hashes max_value rng).b,
      x ≤ (generate_hash_functions num_hashes max_value rng).p - 1) := by
  refine ⟨rfl, prime_2000003, ?_, ?_, ?_⟩
  · intro h
    rw [generate_p_eq]
    exact h
  · intro x hx
    have := generate_a_range num_hashes max_value rng x hx
    rw [generate_p_eq]
    omega
  · intro x hx
    have := generate_b_range num_hashes max_value rng x hx
    rw [generate_p_eq]
    omega

/-- Witness for the amended C3 at `num_hashes = 1`, `max_value = 5`, the
all-zero stream. -/
theorem claim_C3_witness :
    (generate_hash_functions 1 5 zeroStream).p = 2000003 ∧
    Nat.Prime (generate_hash_functions 1 5 zeroStream).p ∧
    (5 < 2000003 → 5 < (generate_hash_functions 1 5 zeroStream).p) ∧
    (∀ x ∈ (generate_hash_functions 1 5 zeroStream).a,
      1 ≤ x ∧ x ≤ (generate_hash_functions 1 5 zeroStream).p - 1) ∧
    (∀ x ∈ (generate_hash_functions 1 5 zeroStream).b,
      x ≤ (generate_hash_functions 1 5 zeroStream).p - 1) :=
  claim_C3_hash_family 1 5 zeroStream (by decide)

/-- Claim C4 counterexample: for two distinct rows that both have no active
columns, `jaccard_similarity_csr` returns `0`, not the claimed `1`. -/
theorem claim_C4_counterexample :
    rowOf csrEmpty2 0 = [] ∧ rowOf csrEmpty2 1 = [] ∧
    jaccard_similarity_csr csrEmpty2 0 1 ≠ 1 :=
  ⟨rfl, rfl, by decide⟩

/-- Claim C4 (amended): for distinct row indices, whenever at least one of
the two rows has no active columns — in particular when both are empty — the
similarity is `0` (the source's `intersection == 0` guard fires before the
empty-union guard could return anything else). -/
theorem claim_C4_empty_rows (R : CsrMatrix) (u1 u2 : Nat) (hne : u1 ≠ u2)
    (h : rowOf R u1 = [] ∨ rowOf R u2 = []) :
    jaccard_similarity_csr R u1 u2 = 0 := by
  rw [jaccard_similarity_csr, if_neg hne]
  rcases h with h | h
  · by_cases hgt : u1 > u2
    · rw [if_pos hgt, h, jaccardOfRows_nil_right]
    · rw [if_neg hgt, h, jaccardOfRows_nil_left]
  · by_cases hgt : u1 > u2
    · rw [if_pos hgt, h, jaccardOfRows_nil_left]
    · rw [if_neg hgt, h, jaccardOfRows_nil_right]

/-- Witness for the amended C4: two empty rows, and an empty row against a
non-empty one. -/
theorem claim_C4_witness :
    jaccard_similarity_csr csrEmpty2 0 1 = 0 ∧
    jaccard_similarity_csr csrHalf 1 0 = 0 :=
  ⟨claim_C4_empty_rows csrEmpty2 0 1 (by decide) (Or.inl rfl),
   claim_C4_empty_rows csrHalf 1 0 (by decide) (Or.inl rfl)⟩

/-- Claim C5 counterexample: `verify_candidates_and_write` writes in the
candidate iteration order — iterating `[(2,3), (0,1)]` produces the output
`[(3,4), (1,2)]`, which is not ascending by `(uid1, uid2)`. -/
theorem claim_C5_counterexample :
    verify_candidates_and_write csrEmpty4 [(2, 3), (0, 1)] 0 = [(3, 4), (1, 2)] ∧
    ¬ List.Pairwise pairLt (verify_candidates_and_write csrEmpty4 [(2, 3), (0, 1)] 0) :=
  ⟨by decide, by decide⟩

/-- Claim C5 (amended): the verifier imposes no ordering of its own — the
accepted pairs are written in the candidate iteration order (the filtered,
normalized candidate list); the output is ascending by `(uid1, uid2)` only
when the candidates are iterated in ascending order. -/
theorem claim_C5_write_order (R : CsrMatrix) (cands : List (Nat × Nat))
    (t : ℚ) (hc : ∀ c ∈ cands, c.1 < c.2)
    (hsorted : List.Pairwise pairLt cands) :
    verify_candidates_and_write R cands t =
      (cands.filter fun c => t ≤ jaccard_similarity_csr R c.1 c.2).map
        (fun c => (c.1 + 1, c.2 + 1)) ∧
    List.Pairwise pairLt (verify_candidates_and_write R cands t) := by
  refine ⟨verify_eq_map_filter R cands t hc, ?_⟩
  rw [verify_eq_map_filter R cands t hc]
  refine List.Pairwise.map _ ?_ (hsorted.filter _)
  intro a b hab
  rcases hab with hab | ⟨hab, hab2⟩
  · exact Or.inl (by omega)
  · exact Or.inr ⟨by omega, by omega⟩

/-- Witness for the amended C5 at an ascending candidate list over empty
rows. -/
theorem claim_C5_witness :
    verify_candidates_and_write csrEmpty4 [(0, 1), (2, 3)] 0 =
      ([(0, 1), (2, 3)].filter fun c =>
        (0 : ℚ) ≤ jaccard_similarity_csr csrEmpty4 c.1 c.2).map
        (fun c => (c.1 + 1, c.2 + 1)) ∧
    List.Pairwise pairLt (verify_candidates_and_write csrEmpty4 [(0, 1), (2, 3)] 0) :=
  claim_C5_write_order csrEmpty4 [(0, 1), (2, 3)] 0 (by decide) (by decide)

/-- Claim C6 counterexample: no threshold validation exists — with the
out-of-range threshold `-1`, `verify_candidates_and_write` computes
similarities and writes a pair to the sink instead of failing before any
computation. -/
theorem claim_C6_counterexample :
    ((-1 : ℚ) < 0 ∨ 1 < (-1 : ℚ)) ∧
    verify_candidates_and_write csrEmpty4 [(0, 1)] (-1) = [(1, 2)] :=
  ⟨Or.inl (by decide), by decide⟩

/-- Claim C6 (amended): the verifier performs no validation of the
threshold: any value is accepted; a threshold below `0` accepts every
candidate pair, and a threshold above `1` accepts none (similarities always
lie in `[0, 1]`). -/
theorem claim_C6_no_threshold_validation (R : CsrMatrix)
    (cands : List (Nat × Nat)) (t : ℚ) (hc : ∀ c ∈ cands, c.1 < c.2) :
    (t < 0 → verify_candidates_and_write R cands t =
      cands.map fun c => (c.1 + 1, c.2 + 1)) ∧
    (1 < t → verify_candidates_and_write R cands t = []) := by
  constructor
  · intro ht
    rw [verify_eq_map_filter R cands t hc, List.filter_eq_self.mpr]
    intro c _
    exact decide_eq_true (le_of_lt (lt_of_lt_of_le ht (jaccard_nonneg R c.1 c.2)))
  · intro ht
    rw [verify_eq_map_filter R cands t hc, List.filter_eq_nil_iff.mpr, List.map_nil]
    intro c _
    simp only [decide_eq_true_eq]
    exact not_le.mpr (lt_of_le_of_lt (jaccard_le_one R c.1 c.2) ht)

/-- Witness for the amended C6 at thresholds `-2` and `2`. -/
theorem claim_C6_witness :
    verify_candidates_and_write csrEmpty4 [(0, 1)] (-2) = [(1, 2)] ∧
    verify_candidates_and_write csrEmpty4 [(0, 1)] 2 = [] := by
  constructor
  · have h := (claim_C6_no_threshold_validation csrEmpty4 [(0, 1)] (-2)
      (by decide)).1 (by decide)
    simpa using h
  · exact (claim_C6_no_threshold_validation csrEmpty4 [(0, 1)] 2
      (by decide)).2 (by decide)

/-- Claim C7 counterexample: `compute_minhash_signatures` performs no
`num_hashes` validation — `num_hashes = 0` succeeds and returns an
`n_users × 0` signature matrix instead of failing with a configuration
error. -/
theorem claim_C7_counterexample :
    compute_minhash_signatures (.csr csrHalf) 0 7 = .ok (minhashCore csrHalf 0 7) ∧
    (minhashCore csrHalf 0 7).nCols = 0 ∧ (minhashCore csrHalf 0 7).nRows = 2 :=
  ⟨rfl, rfl, rfl⟩

/-- Claim C7 (amended): the signature generator fails with a type error when
its argument is not a csr matrix, but does not validate `num_hashes`:
`num_hashes = 0` is accepted and yields an `n_users × 0` signature matrix. -/
theorem claim_C7_type_check_only (num_hashes seed : Nat) (R : CsrMatrix) :
    compute_minhash_signatures .nonCsr num_hashes seed =
      .error "R must be a csr_matrix" ∧
    compute_minhash_signatures (.csr R) 0 seed = .ok (minhashCore R 0 seed) ∧
    (minhashCore R 0 seed).nCols = 0 ∧ (minhashCore R 0 seed).nRows = R.nRows :=
  ⟨rfl, rfl, rfl, rfl⟩

/-- Claim C8: every LSH candidate pair has its smaller row first (so no row
is paired with itself) and both components are in-range row indices. -/
theorem claim_C8_pair_invariants (sigs : Mat) (rpb mbs : Nat) (q : Nat × Nat)
    (hq : q ∈ lshCandidatesCore sigs rpb mbs) :
    q.1 < q.2 ∧ q.1 < sigs.nRows ∧ q.2 < sigs.nRows := by
  obtain ⟨x, y⟩ := q
  obtain ⟨b, hb, key, hmem, hl2, hl3⟩ :=
    (mem_lshCandidatesCore sigs rpb mbs (x, y)).mp hq
  have hxy := pairsOf_lt (bucketUsers_sorted sigs rpb b key) hmem
  obtain ⟨hx, hy⟩ := mem_of_mem_pairsOf hmem
  exact ⟨hxy, ((mem_bucketUsers sigs rpb b key x).mp hx).1,
    ((mem_bucketUsers sigs rpb b key y).mp hy).1⟩

/-- Witness for C8: the candidate `(0, 1)` of the concrete 2 × 1 signature
matrix. -/
theorem claim_C8_witness :
    (0, 1).1 < (0, 1).2 ∧ (0, 1).1 < sigTwo.nRows ∧ (0, 1).2 < sigTwo.nRows :=
  claim_C8_pair_invariants sigTwo 1 2 (0, 1) (by decide)

/-- Claim C9: two runs on identical inputs with identical parameters produce
identical signature matrices, identical candidate sets, and identical output
file content (the pipeline retains no hidden state; the random source is a
pure function of the seed). -/
theorem claim_C9_determinism (R R2 : CsrMatrix)
    (nh nh2 seed seed2 rpb rpb2 mbs mbs2 : Nat) (t t2 : ℚ)
    (hR : R = R2) (hnh : nh = nh2) (hseed : seed = seed2) (hrpb : rpb = rpb2)
    (hmbs : mbs = mbs2) (ht : t = t2) :
    minhashCore R nh seed = minhashCore R2 nh2 seed2 ∧
    lsh_candidate_pairs (minhashCore R nh seed) rpb mbs =
      lsh_candidate_pairs (minhashCore R2 nh2 seed2) rpb2 mbs2 ∧
    runOutput R nh seed rpb mbs t = runOutput R2 nh2 seed2 rpb2 mbs2 t2 := by
  subst hR; subst hnh; subst hseed; subst hrpb; subst hmbs; subst ht
  exact ⟨rfl, rfl, rfl⟩

/-- Witness for C9 at one concrete parameter set. -/
theorem claim_C9_witness :
    minhashCore csrAB 4 42 = minhashCore csrAB 4 42 ∧
    lsh_candidate_pairs (minhashCore csrAB 4 42) 2 3 =
      lsh_candidate_pairs (minhashCore csrAB 4 42) 2 3 ∧
    runOutput csrAB 4 42 2 3 0 = runOutput csrAB 4 42 2 3 0 :=
  claim_C9_determinism csrAB csrAB 4 4 42 42 2 2 3 3 0 0 rfl rfl rfl rfl rfl rfl

/-- Claim C10: every signature entry of a row with at least one active
column lies in `[0, p-1]` for `p = 2_000_003`, every entry of an empty row
is exactly `p + 1 = 2_000_004`, and every entry fits losslessly in int32. -/
theorem claim_C10_signature_range (R : CsrMatrix) (num_hashes seed u i : Nat) :
    (rowOf R u ≠ [] → (minhashCore R num_hashes seed).entry u i ≤ 2000002) ∧
    (rowOf R u = [] → (minhashCore R num_hashes seed).entry u i = 2000004) ∧
    (minhashCore R num_hashes seed).entry u i < 2 ^ 31 := by
  refine ⟨minhashCore_entry_le R num_hashes seed u i,
    minhashCore_entry_of_empty R num_hashes seed u i, ?_⟩
  by_cases h : rowOf R u = []
  · rw [minhashCore_entry_of_empty R num_hashes seed u i h]
    norm_num
  · have := minhashCore_entry_le R num_hashes seed u i h
    omega

/-- Witness for C10: a non-empty row and an empty row of a concrete
matrix. -/
theorem claim_C10_witness :
    (minhashCore csrHalf 2 0).entry 0 0 ≤ 2000002 ∧
    (minhashCore csrHalf 2 0).entry 1 0 = 2000004 :=
  ⟨(claim_C10_signature_range csrHalf 2 0 0 0).1 (by decide),
   (claim_C10_signature_range csrHalf 2 0 1 0).2.1 rfl⟩
